import Mathlib

/-!
Verification development for `examples/notebooks/statespace_concentrated_scale.ipynb`.

The notebook defines two subclasses of `sm.tsa.statespace.MLEModel` for the
local level model

  y_t = alpha_t + eps_t,        eps_t ~ N(0, sigma_eps^2)
  alpha_{t+1} = alpha_t + eta_t, eta_t ~ N(0, sigma_eta^2)

`LocalLevel` estimates both variances numerically; `LocalLevelConcentrated`
fixes `state_cov = 1`, estimates the single ratio parameter
`h = sigma_eps^2 / sigma_eta^2`, and sets `filter_concentrated = True` so the
scale `sigma_*^2 = sigma_eta^2` is computed analytically from the Kalman
filter recursions.

The class-level data (`_start_params`, `_param_names`, the system matrices set
in `__init__`, `transform_params`, `untransform_params`, `update`) is embedded
directly from the notebook source.  The Kalman filtering pass, the concentrated
scale computation and the likelihood evaluation live in the external
statsmodels library and are not part of this repository; they are modelled
from the spec (section 4.1) and from the model equations stated in the
notebook, exactly over the rationals.
-/

/-- System matrices of a scalar (one state, one observed series) state space
model, as the notebook's `__init__`/`update` methods address them:
`self['design', 0, 0]`, `self['transition', 0, 0]`, `self['selection', 0, 0]`,
`self['state_cov', 0, 0]`, `self['obs_cov', 0, 0]`. -/
structure SystemMatrices where
  design : ℝ
  transition : ℝ
  selection : ℝ
  state_cov : ℝ
  obs_cov : ℝ

namespace LocalLevel

/-- `_start_params = [1., 1.]` of class `LocalLevel`. -/
def start_params : List ℚ := [1, 1]

/-- `_param_names = ['var.level', 'var.irregular']` of class `LocalLevel`. -/
def param_names : List String := ["var.level", "var.irregular"]

/-- The system matrices after `LocalLevel.__init__`: design, transition and
selection entries set to 1; covariance entries not yet assigned (zero). -/
def initMatrices : SystemMatrices :=
  { design := 1, transition := 1, selection := 1, state_cov := 0, obs_cov := 0 }

/-- `LocalLevel.transform_params`: `return unconstrained**2`, elementwise. -/
noncomputable def transform_params (unconstrained : List ℝ) : List ℝ :=
  unconstrained.map (fun x => x ^ 2)

/-- `LocalLevel.untransform_params`: `return unconstrained**0.5`, elementwise
(real power with exponent 1/2). -/
noncomputable def untransform_params (unconstrained : List ℝ) : List ℝ :=
  unconstrained.map (fun x => x ^ ((1 : ℝ) / 2))

/-- `LocalLevel.update`: sets `self['state_cov', 0, 0] = params[0]` and
`self['obs_cov', 0, 0] = params[1]`, leaving every other entry alone. -/
def update (m : SystemMatrices) (params : List ℝ) : SystemMatrices :=
  { m with state_cov := params.getD 0 0, obs_cov := params.getD 1 0 }

end LocalLevel

namespace LocalLevelConcentrated

/-- `_start_params = [1.]` of class `LocalLevelConcentrated`. -/
def start_params : List ℚ := [1]

/-- `_param_names = ['ratio.irregular']` of class `LocalLevelConcentrated`. -/
def param_names : List String := ["ratio.irregular"]

/-- The system matrices after `LocalLevelConcentrated.__init__`: design,
transition, selection and `state_cov` entries set to 1; `obs_cov` not yet
assigned (zero). -/
def initMatrices : SystemMatrices :=
  { design := 1, transition := 1, selection := 1, state_cov := 1, obs_cov := 0 }

/-- `LocalLevelConcentrated.transform_params`: `return unconstrained**2`. -/
noncomputable def transform_params (unconstrained : List ℝ) : List ℝ :=
  unconstrained.map (fun x => x ^ 2)

/-- `LocalLevelConcentrated.untransform_params`: `return unconstrained**0.5`. -/
noncomputable def untransform_params (unconstrained : List ℝ) : List ℝ :=
  unconstrained.map (fun x => x ^ ((1 : ℝ) / 2))

/-- `LocalLevelConcentrated.update`: sets `self['obs_cov', 0, 0] = params[0]`
only. -/
def update (m : SystemMatrices) (params : List ℝ) : SystemMatrices :=
  { m with obs_cov := params.getD 0 0 }

end LocalLevelConcentrated

/-- Outcome of one period of the Kalman filtering pass for the local level
model: an exact-diffuse initialization period, a missing observation, or a
standard period with one-step-ahead prediction error `v` and prediction error
variance `F`. -/
inductive Step
  | diffuse
  | missing
  | std (v F : ℚ)
deriving DecidableEq, Repr

/-- Whether a step is a standard (non-missing, non-diffuse) update. -/
def Step.isStd : Step → Bool
  | .std _ _ => true
  | _ => false

/-- Modelled from the spec: the Kalman filter recursion of the external
statsmodels library, specialized to the local level model (design,
transition and selection all 1) with state variance `q`, observation variance
`e`, and exact diffuse initialization.  The filter state is `none` while still
diffuse, and `some (a, P)` afterwards, where `a` is the one-step-ahead state
prediction and `P` its variance.  A missing observation only propagates the
prediction; the first non-missing observation is the diffuse period, after
which `a = y` and `P = q + e` (the exact-diffuse limit for the local level
model); a standard period records `v = y - a`, `F = P + e` and updates
`a' = a + (P/F) v`, `P' = P e / F + q`. -/
def kfRun (q e : ℚ) : Option (ℚ × ℚ) → List (Option ℚ) → List Step
  | _, [] => []
  | none, none :: ys => Step.missing :: kfRun q e none ys
  | none, some y :: ys => Step.diffuse :: kfRun q e (some (y, q + e)) ys
  | some (a, P), none :: ys => Step.missing :: kfRun q e (some (a, P + q)) ys
  | some (a, P), some y :: ys =>
      Step.std (y - a) (P + e) ::
        kfRun q e (some (a + P / (P + e) * (y - a), P * e / (P + e) + q)) ys

/-- The list of filtering-step outcomes on a dataset, starting diffuse. -/
def filterOutput (q e : ℚ) (ys : List (Option ℚ)) : List Step :=
  kfRun q e none ys

/-- Squared normalized prediction error of one step (`0` for diffuse or
missing periods). -/
def stepSumsq : Step → ℚ
  | .std v F => v ^ 2 / F
  | _ => 0

/-- Accumulated sum of squared normalized prediction errors over a pass. -/
def sumsq (steps : List Step) : ℚ :=
  (steps.map stepSumsq).sum

/-- Number of standard periods of a pass: non-missing observations, with the
diffuse period excluded. -/
def nobs (steps : List Step) : ℕ :=
  steps.countP Step.isStd

/-- Modelled from the spec: the maximum likelihood estimate of the scale from
one concentrated filtering pass is the accumulated sum of squared normalized
prediction errors divided by the number of non-missing, non-diffuse
observations. -/
def scaleEst (q e : ℚ) (ys : List (Option ℚ)) : ℚ :=
  sumsq (filterOutput q e ys) / (nobs (filterOutput q e ys) : ℚ)

/-- Modelled from the spec: the Gaussian log-likelihood contribution of one
filtering step.  A standard period contributes
`-(log 2 pi + log F + v^2 / F) / 2`; the exact-diffuse period contributes
`-(log 2 pi) / 2` (its diffuse prediction-error variance is the
normalized diffuse term, whose log vanishes); a missing observation
contributes nothing. -/
noncomputable def stepLoglik : Step → ℝ
  | .diffuse => -(1 / 2) * Real.log (2 * Real.pi)
  | .missing => 0
  | .std v F => -(1 / 2) * (Real.log (2 * Real.pi) + Real.log (F : ℚ) + ((v ^ 2 / F : ℚ) : ℝ))

/-- Modelled from the spec: log-likelihood of the unconcentrated local level
model with `state_cov = q` and `obs_cov = e` (the quantity maximized by
`LocalLevel.fit`). -/
noncomputable def loglik (q e : ℚ) (ys : List (Option ℚ)) : ℝ :=
  ((filterOutput q e ys).map stepLoglik).sum

/-- Modelled from the spec: the log-likelihood contribution of one step of the
scale-free pass once the estimated scale `c` has been substituted back into
the scale-dependent covariance terms: a standard period with scale-free
prediction error variance `F` is evaluated at variance `c * F`. -/
noncomputable def stepLoglikConc (c : ℚ) : Step → ℝ
  | .diffuse => -(1 / 2) * Real.log (2 * Real.pi)
  | .missing => 0
  | .std v F => -(1 / 2) * (Real.log (2 * Real.pi) + Real.log ((c * F : ℚ)) + ((v ^ 2 / (c * F) : ℚ) : ℝ))

/-- Modelled from the spec: the concentrated log-likelihood of
`LocalLevelConcentrated` at ratio parameter `h` (`filter_concentrated =
True`): run the filter with `state_cov = 1`, `obs_cov = h`, estimate the scale
analytically, and substitute it back into the scale-dependent covariance
terms to complete the likelihood evaluation. -/
noncomputable def concLoglik (h : ℚ) (ys : List (Option ℚ)) : ℝ :=
  ((filterOutput 1 h ys).map (stepLoglikConc (scaleEst 1 h ys))).sum

/-- Modelled from the spec: the concentrated log-likelihood under the other
normalization, which fixes the observation-noise variance to 1 and uses the
parameter `q_eta = sigma_eta^2 / sigma_eps^2` as `state_cov`. -/
noncomputable def concLoglikObsNorm (qeta : ℚ) (ys : List (Option ℚ)) : ℝ :=
  ((filterOutput qeta 1 ys).map (stepLoglikConc (scaleEst qeta 1 ys))).sum

/-- Modelled from the spec: a single concentrated filtering pass that
accumulates, period by period, the running sum `acc` of squared normalized
prediction errors and the count `n` of non-missing, non-diffuse observations,
alongside the filter state. -/
def concPass (q e : ℚ) : Option (ℚ × ℚ) → ℚ → ℕ → List (Option ℚ) → ℚ × ℕ
  | _, acc, n, [] => (acc, n)
  | none, acc, n, none :: ys => concPass q e none acc n ys
  | none, acc, n, some y :: ys => concPass q e (some (y, q + e)) acc n ys
  | some (a, P), acc, n, none :: ys => concPass q e (some (a, P + q)) acc n ys
  | some (a, P), acc, n, some y :: ys =>
      concPass q e (some (a + P / (P + e) * (y - a), P * e / (P + e) + q))
        (acc + (y - a) ^ 2 / (P + e)) (n + 1) ys

/-- Modelled from the spec: the estimated scale returned at the end of a
concentrated filtering pass: the accumulated sum divided by the accumulated
count. -/
def filterConcentratedScale (q e : ℚ) (ys : List (Option ℚ)) : ℚ :=
  (concPass q e none 0 0 ys).1 / ((concPass q e none 0 0 ys).2 : ℚ)

/-- Optimizer return values exposed by a fit, as the notebook reads them
(`res.mle_retvals['iterations']`). -/
structure MleRetvals where
  iterations : ℕ
deriving Repr

/-- The results object returned by `fit`, with the attributes the notebook
reads: `params`, `scale`, `llf` and `mle_retvals`. -/
structure FitResults where
  params : List ℚ
  scale : ℚ
  llf : ℝ
  mle_retvals : MleRetvals

/-- Modelled from the spec: `LocalLevel(endog).fit()`.  The external numerical
optimizer is represented by the parameter vector it returns and its iteration
count; the results object exposes those parameters, the (unconcentrated)
scale 1, the log-likelihood at the returned parameters, and the optimizer
return values. -/
noncomputable def LocalLevel.fit (ys : List (Option ℚ)) (optParams : List ℚ)
    (iters : ℕ) : FitResults :=
  { params := optParams
    scale := 1
    llf := loglik (optParams.getD 0 0) (optParams.getD 1 0) ys
    mle_retvals := { iterations := iters } }

/-- Modelled from the spec: `LocalLevelConcentrated(endog).fit()`.  The
external numerical optimizer is represented by the ratio parameter it returns
and its iteration count; the results object exposes the one-element parameter
vector, the scale estimated analytically by the concentrated filtering pass,
the concentrated log-likelihood, and the optimizer return values. -/
noncomputable def LocalLevelConcentrated.fit (ys : List (Option ℚ)) (h : ℚ)
    (iters : ℕ) : FitResults :=
  { params := [h]
    scale := scaleEst 1 h ys
    llf := concLoglik h ys
    mle_retvals := { iterations := iters } }

/-- Rescaling of one filtering step: a standard step's prediction error
variance is multiplied by `c`, the prediction error itself is unchanged. -/
def Step.scaleF (c : ℚ) : Step → Step
  | .std v F => .std v (c * F)
  | s => s

@[simp] lemma Step.scaleF_diffuse (c : ℚ) : Step.scaleF c .diffuse = .diffuse := rfl

@[simp] lemma Step.scaleF_missing (c : ℚ) : Step.scaleF c .missing = .missing := rfl

@[simp] lemma Step.scaleF_std (c v F : ℚ) :
    Step.scaleF c (.std v F) = .std v (c * F) := rfl

lemma kfRun_scale (c q e : ℚ) (hc : c ≠ 0) :
    ∀ (ys : List (Option ℚ)) (st : Option (ℚ × ℚ)),
    kfRun (c * q) (c * e) (st.map (fun p => (p.1, c * p.2))) ys
      = (kfRun q e st ys).map (Step.scaleF c) := by
  intro ys
  induction ys with
  | nil => intro st; cases st <;> rfl
  | cons y ys ih =>
    intro st
    match st, y with
    | none, none =>
      simpa [kfRun] using ih none
    | none, some y =>
      have h1 : c * q + c * e = c * (q + e) := by ring
      simpa [kfRun, h1] using ih (some (y, q + e))
    | some (a, P), none =>
      have h1 : c * P + c * q = c * (P + q) := by ring
      simpa [kfRun, h1] using ih (some (a, P + q))
    | some (a, P), some y =>
      have hF : c * P + c * e = c * (P + e) := by ring
      have hK : c * P / (c * (P + e)) = P / (P + e) := mul_div_mul_left _ _ hc
      have hP : c * P * (c * e) / (c * (P + e)) + c * q
          = c * (P * e / (P + e) + q) := by
        rcases eq_or_ne (P + e) 0 with h | h
        · simp [h]
        · field_simp
          ring
      simpa [kfRun, hF, hK, hP] using
        ih (some (a + P / (P + e) * (y - a), P * e / (P + e) + q))

lemma filterOutput_scale (c q e : ℚ) (hc : c ≠ 0) (ys : List (Option ℚ)) :
    filterOutput (c * q) (c * e) ys = (filterOutput q e ys).map (Step.scaleF c) := by
  simpa [filterOutput] using kfRun_scale c q e hc ys none

lemma kfRun_F_pos (q e : ℚ) (hq : 0 < q) (he : 0 < e) :
    ∀ (ys : List (Option ℚ)) (st : Option (ℚ × ℚ)),
    (∀ a P, st = some (a, P) → 0 < P) →
    ∀ v F, Step.std v F ∈ kfRun q e st ys → 0 < F := by
  intro ys
  induction ys with
  | nil => intro st _ v F h; simp [kfRun] at h
  | cons y ys ih =>
    intro st hst v F hmem
    match st, y with
    | none, none =>
      rw [kfRun] at hmem
      rcases List.mem_cons.mp hmem with h | h
      · exact absurd h (by simp)
      · exact ih none (by simp) v F h
    | none, some y =>
      rw [kfRun] at hmem
      rcases List.mem_cons.mp hmem with h | h
      · exact absurd h (by simp)
      · refine ih (some (y, q + e)) ?_ v F h
        rintro a P h'
        obtain ⟨rfl, rfl⟩ : y = a ∧ q + e = P := by simpa using h'
        positivity
    | some (a, P), none =>
      have hP : 0 < P := hst a P rfl
      rw [kfRun] at hmem
      rcases List.mem_cons.mp hmem with h | h
      · exact absurd h (by simp)
      · refine ih (some (a, P + q)) ?_ v F h
        rintro a' P' h'
        obtain ⟨rfl, rfl⟩ : a = a' ∧ P + q = P' := by simpa using h'
        positivity
    | some (a, P), some y =>
      have hP : 0 < P := hst a P rfl
      have hPe : 0 < P + e := by positivity
      rw [kfRun] at hmem
      rcases List.mem_cons.mp hmem with h | h
      · obtain ⟨-, rfl⟩ := Step.std.inj h
        exact hPe
      · refine ih (some (a + P / (P + e) * (y - a), P * e / (P + e) + q)) ?_ v F h
        rintro a' P' h'
        obtain ⟨rfl, rfl⟩ : a + P / (P + e) * (y - a) = a' ∧ P * e / (P + e) + q = P' := by
          simpa using h'
        positivity

lemma filterOutput_F_pos (q e : ℚ) (hq : 0 < q) (he : 0 < e)
    (ys : List (Option ℚ)) :
    ∀ v F, Step.std v F ∈ filterOutput q e ys → 0 < F :=
  kfRun_F_pos q e hq he ys none (by simp)

lemma sumsq_cons (s : Step) (steps : List Step) :
    sumsq (s :: steps) = stepSumsq s + sumsq steps := by
  simp [sumsq]

lemma nobs_cons (s : Step) (steps : List Step) :
    nobs (s :: steps) = (if s.isStd then 1 else 0) + nobs steps := by
  simp [nobs, List.countP_cons]
  rcases s with _ | _ | ⟨v, F⟩ <;> simp [Step.isStd] <;> omega

lemma sumsq_scale (c : ℚ) (steps : List Step) :
    sumsq (steps.map (Step.scaleF c)) = sumsq steps / c := by
  induction steps with
  | nil => simp [sumsq]
  | cons s steps ih =>
    have hs : stepSumsq (Step.scaleF c s) = stepSumsq s / c := by
      rcases s with _ | _ | ⟨v, F⟩
      · simp [stepSumsq]
      · simp [stepSumsq]
      · simp only [Step.scaleF_std, stepSumsq]
        rw [div_div, mul_comm F c]
    rw [List.map_cons, sumsq_cons, sumsq_cons, hs, ih, add_div]

lemma nobs_scale (c : ℚ) (steps : List Step) :
    nobs (steps.map (Step.scaleF c)) = nobs steps := by
  induction steps with
  | nil => rfl
  | cons s steps ih =>
    have hs : (Step.scaleF c s).isStd = s.isStd := by
      rcases s with _ | _ | ⟨v, F⟩ <;> rfl
    rw [List.map_cons, nobs_cons, nobs_cons, hs, ih]

lemma concPass_spec (q e : ℚ) :
    ∀ (ys : List (Option ℚ)) (st : Option (ℚ × ℚ)) (acc : ℚ) (n : ℕ),
    concPass q e st acc n ys
      = (acc + sumsq (kfRun q e st ys), n + nobs (kfRun q e st ys)) := by
  intro ys
  induction ys with
  | nil => intro st acc n; cases st <;> simp [concPass, kfRun, sumsq, nobs]
  | cons y ys ih =>
    intro st acc n
    match st, y with
    | none, none =>
      rw [show concPass q e none acc n (none :: ys) = concPass q e none acc n ys from rfl,
        ih, show kfRun q e none (none :: ys) = Step.missing :: kfRun q e none ys from rfl,
        sumsq_cons, nobs_cons]
      simp [stepSumsq, Step.isStd]
    | none, some y =>
      rw [show concPass q e none acc n (some y :: ys)
            = concPass q e (some (y, q + e)) acc n ys from rfl,
        ih, show kfRun q e none (some y :: ys)
            = Step.diffuse :: kfRun q e (some (y, q + e)) ys from rfl,
        sumsq_cons, nobs_cons]
      simp [stepSumsq, Step.isStd]
    | some (a, P), none =>
      rw [show concPass q e (some (a, P)) acc n (none :: ys)
            = concPass q e (some (a, P + q)) acc n ys from rfl,
        ih, show kfRun q e (some (a, P)) (none :: ys)
            = Step.missing :: kfRun q e (some (a, P + q)) ys from rfl,
        sumsq_cons, nobs_cons]
      simp [stepSumsq, Step.isStd]
    | some (a, P), some y =>
      rw [show concPass q e (some (a, P)) acc n (some y :: ys)
            = concPass q e (some (a + P / (P + e) * (y - a), P * e / (P + e) + q))
                (acc + (y - a) ^ 2 / (P + e)) (n + 1) ys from rfl,
        ih, show kfRun q e (some (a, P)) (some y :: ys)
            = Step.std (y - a) (P + e)
              :: kfRun q e (some (a + P / (P + e) * (y - a), P * e / (P + e) + q)) ys from rfl,
        sumsq_cons, nobs_cons]
      refine Prod.ext ?_ ?_
      · simp [stepSumsq]
        ring
      · simp [Step.isStd]
        omega

lemma stepLoglik_scaleF (c : ℚ) (s : Step) :
    stepLoglik (Step.scaleF c s) = stepLoglikConc c s := by
  rcases s with _ | _ | ⟨v, F⟩ <;> rfl

lemma loglik_as_concSum (c h : ℚ) (hc : c ≠ 0) (ys : List (Option ℚ)) :
    loglik c (c * h) ys = ((filterOutput 1 h ys).map (stepLoglikConc c)).sum := by
  have h1 : loglik c (c * h) ys = loglik (c * 1) (c * h) ys := by rw [mul_one]
  rw [h1, loglik, filterOutput_scale c 1 h hc, List.map_map]
  have hf : stepLoglik ∘ Step.scaleF c = stepLoglikConc c :=
    funext (stepLoglik_scaleF c)
  rw [hf]

lemma nobs_pos_of_sumsq_ne (steps : List Step) (h : sumsq steps ≠ 0) :
    0 < nobs steps := by
  induction steps with
  | nil => simp [sumsq] at h
  | cons s t ih =>
    rw [sumsq_cons] at h
    rw [nobs_cons]
    rcases s with _ | _ | ⟨v, F⟩
    · simp only [stepSumsq, zero_add] at h
      have := ih h
      simp [Step.isStd]
      omega
    · simp only [stepSumsq, zero_add] at h
      have := ih h
      simp [Step.isStd]
      omega
    · simp [Step.isStd]

lemma scaleEst_pos (q e : ℚ) (ys : List (Option ℚ))
    (hs : 0 < sumsq (filterOutput q e ys)) : 0 < scaleEst q e ys := by
  have hn : 0 < nobs (filterOutput q e ys) :=
    nobs_pos_of_sumsq_ne _ (ne_of_gt hs)
  have hn' : (0 : ℚ) < (nobs (filterOutput q e ys) : ℚ) := by exact_mod_cast hn
  exact div_pos hs hn'

lemma stepLoglikConc_decomp (c : ℚ) (hc : 0 < c) (v F : ℚ) (hF : 0 < F) :
    stepLoglikConc c (.std v F)
      = stepLoglikConc 1 (.std v F) - 1 / 2 * Real.log (c : ℝ)
        - ((stepSumsq (.std v F) : ℚ) : ℝ) / (2 * (c : ℝ))
        + ((stepSumsq (.std v F) : ℚ) : ℝ) / 2 := by
  have hcR : (0 : ℝ) < (c : ℝ) := by exact_mod_cast hc
  have hFR : (0 : ℝ) < (F : ℝ) := by exact_mod_cast hF
  simp only [stepLoglikConc, stepSumsq]
  have h1 : ((c * F : ℚ) : ℝ) = (c : ℝ) * (F : ℝ) := by push_cast; ring
  have h2 : ((1 * F : ℚ) : ℝ) = (F : ℝ) := by push_cast; ring
  rw [h1, h2, Real.log_mul (ne_of_gt hcR) (ne_of_gt hFR)]
  push_cast
  field_simp
  ring

lemma concSum_decomp (c : ℚ) (hc : 0 < c) :
    ∀ steps : List Step, (∀ v F, Step.std v F ∈ steps → 0 < F) →
    (steps.map (stepLoglikConc c)).sum
      = (steps.map (stepLoglikConc 1)).sum
        - (nobs steps : ℝ) / 2 * Real.log (c : ℝ)
        - ((sumsq steps : ℚ) : ℝ) / (2 * (c : ℝ))
        + ((sumsq steps : ℚ) : ℝ) / 2 := by
  intro steps
  induction steps with
  | nil => intro _; simp [sumsq, nobs]
  | cons s t ih =>
    intro hF
    have hFt : ∀ v F, Step.std v F ∈ t → 0 < F := fun v F h =>
      hF v F (List.mem_cons_of_mem _ h)
    rw [List.map_cons, List.map_cons, List.sum_cons, List.sum_cons, ih hFt,
      sumsq_cons, nobs_cons]
    rcases s with _ | _ | ⟨v, F⟩
    · simp only [stepLoglikConc, stepSumsq, Step.isStd]
      push_cast
      ring
    · simp only [stepLoglikConc, stepSumsq, Step.isStd]
      push_cast
      ring
    · have hFpos : 0 < F := hF v F (List.mem_cons_self _ _)
      rw [stepLoglikConc_decomp c hc v F hFpos]
      simp only [Step.isStd, if_true]
      push_cast
      ring

lemma scale_profile_le (N S c σ : ℝ) (hN : 0 < N) (hc : 0 < c) (hσ : 0 < σ)
    (hS : S = N * σ) :
    -(N / 2) * Real.log c - S / (2 * c) ≤ -(N / 2) * Real.log σ - S / (2 * σ) := by
  have ht : 0 < σ / c := div_pos hσ hc
  have key : Real.log (σ / c) ≤ σ / c - 1 := Real.log_le_sub_one_of_pos ht
  have hlog : Real.log c = Real.log σ - Real.log (σ / c) := by
    rw [Real.log_div (ne_of_gt hσ) (ne_of_gt hc)]
    ring
  have hSc : S / (2 * c) = N / 2 * (σ / c) := by
    rw [hS]
    field_simp
  have hSσ : S / (2 * σ) = N / 2 := by
    rw [hS]
    field_simp
    ring
  rw [hSc, hSσ, hlog]
  have h2 : (0 : ℝ) ≤ N / 2 := by positivity
  nlinarith [mul_le_mul_of_nonneg_left key h2]

lemma concLoglik_eq_loglik (h : ℚ) (ys : List (Option ℚ))
    (hs : 0 < sumsq (filterOutput 1 h ys)) :
    concLoglik h ys = loglik (scaleEst 1 h ys) (scaleEst 1 h ys * h) ys := by
  have hσ : 0 < scaleEst 1 h ys := scaleEst_pos 1 h ys hs
  rw [loglik_as_concSum _ h (ne_of_gt hσ) ys, concLoglik]

lemma loglik_ray_le (h : ℚ) (hh : 0 < h) (ys : List (Option ℚ))
    (hs : 0 < sumsq (filterOutput 1 h ys)) (c : ℚ) (hc : 0 < c) :
    loglik c (c * h) ys ≤ concLoglik h ys := by
  have hσ : 0 < scaleEst 1 h ys := scaleEst_pos 1 h ys hs
  rw [loglik_as_concSum c h (ne_of_gt hc) ys, concLoglik]
  have hF : ∀ v F, Step.std v F ∈ filterOutput 1 h ys → 0 < F :=
    filterOutput_F_pos 1 h one_pos hh ys
  rw [concSum_decomp c hc _ hF, concSum_decomp (scaleEst 1 h ys) hσ _ hF]
  have hn : 0 < nobs (filterOutput 1 h ys) := nobs_pos_of_sumsq_ne _ (ne_of_gt hs)
  have hNR : (0 : ℝ) < (nobs (filterOutput 1 h ys) : ℝ) := by exact_mod_cast hn
  have hcR : (0 : ℝ) < ((c : ℚ) : ℝ) := by exact_mod_cast hc
  have hσR : (0 : ℝ) < ((scaleEst 1 h ys : ℚ) : ℝ) := by exact_mod_cast hσ
  have hS : ((sumsq (filterOutput 1 h ys) : ℚ) : ℝ)
      = (nobs (filterOutput 1 h ys) : ℝ) * ((scaleEst 1 h ys : ℚ) : ℝ) := by
    have hn' : ((nobs (filterOutput 1 h ys) : ℚ) : ℝ) ≠ 0 := by
      exact_mod_cast hn.ne'
    rw [scaleEst]
    push_cast
    field_simp
  have := scale_profile_le (nobs (filterOutput 1 h ys) : ℝ)
    ((sumsq (filterOutput 1 h ys) : ℚ) : ℝ) ((c : ℚ) : ℝ)
    ((scaleEst 1 h ys : ℚ) : ℝ) hNR hcR hσR hS
  linarith

lemma stepLoglikConc_scaleF (c σ : ℚ) (hc : c ≠ 0) (s : Step) :
    stepLoglikConc (σ / c) (Step.scaleF c s) = stepLoglikConc σ s := by
  rcases s with _ | _ | ⟨v, F⟩
  · rfl
  · rfl
  · simp only [Step.scaleF_std, stepLoglikConc]
    have h1 : σ / c * (c * F) = σ * F := by
      field_simp
      ring
    rw [h1]

lemma sq_of_halfpow (x : ℝ) (hx : 0 ≤ x) : (x ^ ((1 : ℝ) / 2)) ^ 2 = x := by
  rw [← Real.rpow_natCast (x ^ ((1 : ℝ) / 2)) 2, ← Real.rpow_mul hx]
  norm_num

lemma halfpow_of_sq (x : ℝ) : (x ^ 2) ^ ((1 : ℝ) / 2) = |x| := by
  rw [← sq_abs x, ← Real.rpow_natCast |x| 2, ← Real.rpow_mul (abs_nonneg x)]
  norm_num

lemma getD_map_sq_nonneg (u : List ℝ) (i : ℕ) :
    0 ≤ (u.map (fun x => x ^ 2)).getD i 0 := by
  induction u generalizing i with
  | nil => simp
  | cons x t ih =>
    cases i with
    | zero => simp only [List.map_cons, List.getD_cons_zero]; positivity
    | succ n => simpa only [List.map_cons, List.getD_cons_succ] using ih n

/-- C1: the product of the concentrated formulation's estimated scale and its
estimated ratio parameter reproduces, within 1e-3 relative tolerance (in fact
exactly), the `var.irregular` parameter of the unconcentrated local level
model that corresponds to it: there are unconcentrated parameters
`(var.level, var.irregular)` attaining the same log-likelihood as the
concentrated formulation at ratio `h`, maximizing the unconcentrated
log-likelihood along the ray of models equivalent to ratio `h`, whose
`var.irregular` agrees with `scale * ratio` to within 1e-3 relative. -/
theorem concentrated_scale_times_ratio_matches_var_irregular
    (h : ℚ) (ys : List (Option ℚ)) (hh : 0 < h)
    (hs : 0 < sumsq (filterOutput 1 h ys)) :
    ∃ varLevel varIrregular : ℚ,
      loglik varLevel varIrregular ys = concLoglik h ys
      ∧ (∀ c : ℚ, 0 < c → loglik c (c * h) ys ≤ loglik varLevel varIrregular ys)
      ∧ |scaleEst 1 h ys * h - varIrregular| ≤ 1 / 1000 * |varIrregular| := by
  refine ⟨scaleEst 1 h ys, scaleEst 1 h ys * h,
    (concLoglik_eq_loglik h ys hs).symm, ?_, ?_⟩
  · intro c hc
    rw [← concLoglik_eq_loglik h ys hs]
    exact loglik_ray_le h hh ys hs c hc
  · simp only [sub_self, abs_zero]
    positivity

/-- Witness for C1 at the dataset `[some 0, some 1]` and ratio `h = 1`. -/
theorem concentrated_scale_times_ratio_matches_var_irregular_witness :
    ∃ varLevel varIrregular : ℚ,
      loglik varLevel varIrregular [some 0, some 1] = concLoglik 1 [some 0, some 1]
      ∧ (∀ c : ℚ, 0 < c →
          loglik c (c * 1) [some 0, some 1] ≤ loglik varLevel varIrregular [some 0, some 1])
      ∧ |scaleEst 1 1 [some 0, some 1] * 1 - varIrregular| ≤ 1 / 1000 * |varIrregular| :=
  concentrated_scale_times_ratio_matches_var_irregular 1 [some 0, some 1]
    (by norm_num)
    (by norm_num [sumsq, filterOutput, kfRun, stepSumsq, List.map_cons, List.sum_cons])

/-- C2: on the same dataset, the log-likelihood of the concentrated
formulation at ratio `h` and the log-likelihood of the corresponding
unconcentrated formulation (`var.level = scale`, `var.irregular = scale * h`)
differ by less than 1e-4 in absolute value (in fact they are equal). -/
theorem concentrated_and_unconcentrated_loglike_agree
    (h : ℚ) (ys : List (Option ℚ)) (_hh : 0 < h)
    (hs : 0 < sumsq (filterOutput 1 h ys)) :
    |loglik (scaleEst 1 h ys) (scaleEst 1 h ys * h) ys - concLoglik h ys|
      < 1 / 10000 := by
  rw [concLoglik_eq_loglik h ys hs, sub_self, abs_zero]
  norm_num

/-- Witness for C2 at the dataset `[some 0, some 1]` and ratio `h = 1`. -/
theorem concentrated_and_unconcentrated_loglike_agree_witness :
    |loglik (scaleEst 1 1 [some 0, some 1]) (scaleEst 1 1 [some 0, some 1] * 1)
        [some 0, some 1] - concLoglik 1 [some 0, some 1]| < 1 / 10000 :=
  concentrated_and_unconcentrated_loglike_agree 1 [some 0, some 1]
    (by norm_num)
    (by norm_num [sumsq, filterOutput, kfRun, stepSumsq, List.map_cons, List.sum_cons])

/-- C3: for every positive parameter value, the two normalizations of the
concentrated reparameterization — fixing the observation-noise variance to 1
with parameter `q_eta = sigma_eta^2 / sigma_eps^2`, versus fixing the
state-noise variance to 1 with parameter `h = sigma_eps^2 / sigma_eta^2` —
yield exactly the same likelihood value under the reparameterization
`h = q_eta⁻¹`. -/
theorem two_normalizations_consistent (ys : List (Option ℚ)) (qeta : ℚ)
    (hq : 0 < qeta) :
    concLoglikObsNorm qeta ys = concLoglik qeta⁻¹ ys := by
  have hq' : qeta ≠ 0 := ne_of_gt hq
  have h1 : filterOutput qeta 1 ys
      = (filterOutput 1 qeta⁻¹ ys).map (Step.scaleF qeta) := by
    have := filterOutput_scale qeta 1 qeta⁻¹ hq' ys
    rw [mul_one, mul_inv_cancel₀ hq'] at this
    exact this
  have h2 : scaleEst qeta 1 ys = scaleEst 1 qeta⁻¹ ys / qeta := by
    unfold scaleEst
    rw [h1, sumsq_scale, nobs_scale, div_div, div_div, mul_comm]
  rw [concLoglikObsNorm, h1, h2, List.map_map, concLoglik]
  have hf : stepLoglikConc (scaleEst 1 qeta⁻¹ ys / qeta) ∘ Step.scaleF qeta
      = stepLoglikConc (scaleEst 1 qeta⁻¹ ys) :=
    funext (stepLoglikConc_scaleF qeta (scaleEst 1 qeta⁻¹ ys) hq')
  rw [hf]

/-- Witness for C3 at the dataset `[some 0, some 1]` and `q_eta = 2`. -/
theorem two_normalizations_consistent_witness :
    concLoglikObsNorm 2 [some 0, some 1] = concLoglik 2⁻¹ [some 0, some 1] :=
  two_normalizations_consistent [some 0, some 1] 2 (by norm_num)

/-- C4: the scale returned at the end of a concentrated filtering pass equals
the accumulated sum of squared normalized prediction errors divided by the
number of non-missing observations (the diffuse period and missing
observations excluded from the denominator); substituting this scale back
into the scale-dependent prediction error variances completes the likelihood
evaluation (it equals the unconcentrated log-likelihood at the implied
parameters), and it is the maximum-likelihood estimate of the scale, so no
numerical optimization over the scale is needed. -/
theorem concentrated_filter_scale_spec (h : ℚ) (ys : List (Option ℚ))
    (hh : 0 < h) (hs : 0 < sumsq (filterOutput 1 h ys)) :
    filterConcentratedScale 1 h ys
        = sumsq (filterOutput 1 h ys) / (nobs (filterOutput 1 h ys) : ℚ)
      ∧ concLoglik h ys = loglik (scaleEst 1 h ys) (scaleEst 1 h ys * h) ys
      ∧ ∀ c : ℚ, 0 < c → loglik c (c * h) ys ≤ concLoglik h ys := by
  refine ⟨?_, concLoglik_eq_loglik h ys hs, fun c hc => loglik_ray_le h hh ys hs c hc⟩
  rw [filterConcentratedScale, concPass_spec]
  simp [filterOutput]

/-- Witness for C4 at the dataset `[some 0, some 1]` and ratio `h = 1`. -/
theorem concentrated_filter_scale_spec_witness :
    filterConcentratedScale 1 1 [some 0, some 1]
        = sumsq (filterOutput 1 1 [some 0, some 1])
          / (nobs (filterOutput 1 1 [some 0, some 1]) : ℚ)
      ∧ concLoglik 1 [some 0, some 1]
        = loglik (scaleEst 1 1 [some 0, some 1])
            (scaleEst 1 1 [some 0, some 1] * 1) [some 0, some 1]
      ∧ ∀ c : ℚ, 0 < c →
          loglik c (c * 1) [some 0, some 1] ≤ concLoglik 1 [some 0, some 1] :=
  concentrated_filter_scale_spec 1 [some 0, some 1] (by norm_num)
    (by norm_num [sumsq, filterOutput, kfRun, stepSumsq, List.map_cons, List.sum_cons])

/-- C5: the concentrated formulation has exactly one free parameter
(`ratio.irregular`), one less than the unconcentrated formulation's two
(`var.level`, `var.irregular`), and its fit output consists of an estimated
scale, the reduced parameter vector and a log-likelihood value. -/
theorem concentrated_param_vector_dimension :
    LocalLevelConcentrated.start_params.length + 1 = LocalLevel.start_params.length
    ∧ LocalLevelConcentrated.param_names.length + 1 = LocalLevel.param_names.length
    ∧ LocalLevelConcentrated.param_names = ["ratio.irregular"]
    ∧ LocalLevel.param_names = ["var.level", "var.irregular"]
    ∧ ∀ (ys : List (Option ℚ)) (h : ℚ) (iters : ℕ),
        (LocalLevelConcentrated.fit ys h iters).params.length = 1
        ∧ (LocalLevelConcentrated.fit ys h iters).scale = scaleEst 1 h ys
        ∧ (LocalLevelConcentrated.fit ys h iters).llf = concLoglik h ys :=
  ⟨rfl, rfl, rfl, rfl, fun _ _ _ => ⟨rfl, rfl, rfl⟩⟩

/-- C7: for every model fitted through the demonstrated interface, the results
object returned by `fit` exposes the fitted parameters, the estimated scale,
the log-likelihood and the optimizer return values including the iteration
count. -/
theorem fit_results_expose_attributes :
    (∀ (ys : List (Option ℚ)) (p : List ℚ) (iters : ℕ),
      (LocalLevel.fit ys p iters).params = p
      ∧ (LocalLevel.fit ys p iters).scale = 1
      ∧ (LocalLevel.fit ys p iters).llf = loglik (p.getD 0 0) (p.getD 1 0) ys
      ∧ (LocalLevel.fit ys p iters).mle_retvals.iterations = iters)
    ∧ ∀ (ys : List (Option ℚ)) (h : ℚ) (iters : ℕ),
      (LocalLevelConcentrated.fit ys h iters).params = [h]
      ∧ (LocalLevelConcentrated.fit ys h iters).scale = scaleEst 1 h ys
      ∧ (LocalLevelConcentrated.fit ys h iters).llf = concLoglik h ys
      ∧ (LocalLevelConcentrated.fit ys h iters).mle_retvals.iterations = iters :=
  ⟨fun _ _ _ => ⟨rfl, rfl, rfl, rfl⟩, fun _ _ _ => ⟨rfl, rfl, rfl, rfl⟩⟩

/-- C8: for both models, `transform_params` after `untransform_params` is the
identity on elementwise non-negative vectors, and `untransform_params` after
`transform_params` is the elementwise absolute value, so the round trip from
the unconstrained side holds only for non-negative vectors. -/
theorem transform_untransform_roundtrip :
    (∀ p : List ℝ, (∀ x ∈ p, 0 ≤ x) →
      LocalLevel.transform_params (LocalLevel.untransform_params p) = p
      ∧ LocalLevelConcentrated.transform_params
          (LocalLevelConcentrated.untransform_params p) = p)
    ∧ ∀ u : List ℝ,
      LocalLevel.untransform_params (LocalLevel.transform_params u)
          = u.map (fun x => |x|)
      ∧ LocalLevelConcentrated.untransform_params
          (LocalLevelConcentrated.transform_params u) = u.map (fun x => |x|) := by
  constructor
  · intro p hp
    have h1 : ∀ (g f : List ℝ → List ℝ), g = LocalLevel.untransform_params →
        f = LocalLevel.transform_params → f (g p) = p := by
      intro g f hg hf
      subst hg hf
      rw [LocalLevel.untransform_params, LocalLevel.transform_params, List.map_map]
      simp only [Function.comp_def]
      calc List.map (fun x => (x ^ ((1 : ℝ) / 2)) ^ 2) p
          = List.map id p :=
            List.map_congr_left (fun x hx => sq_of_halfpow x (hp x hx))
        _ = p := List.map_id p
    exact ⟨h1 _ _ rfl rfl, h1 _ _ rfl rfl⟩
  · intro u
    have h2 : ∀ (g f : List ℝ → List ℝ), f = LocalLevel.transform_params →
        g = LocalLevel.untransform_params → g (f u) = u.map (fun x => |x|) := by
      intro g f hf hg
      subst hg hf
      rw [LocalLevel.untransform_params, LocalLevel.transform_params, List.map_map]
      simp only [Function.comp_def]
      exact List.map_congr_left (fun x _ => halfpow_of_sq x)
    exact ⟨h2 _ _ rfl rfl, h2 _ _ rfl rfl⟩

/-- Witness for C8 at `p = [0, 1]` (round trip from the constrained side) and
`u = [-2]` (round trip from the unconstrained side gives absolute values). -/
theorem transform_untransform_roundtrip_witness :
    (LocalLevel.transform_params (LocalLevel.untransform_params [0, 1]) = [0, 1]
      ∧ LocalLevelConcentrated.transform_params
          (LocalLevelConcentrated.untransform_params [0, 1]) = [0, 1])
    ∧ LocalLevel.untransform_params (LocalLevel.transform_params [-2])
        = List.map (fun x => |x|) [-2] :=
  ⟨transform_untransform_roundtrip.1 [0, 1]
      (by intro x hx; rcases List.mem_pair.mp hx with rfl | rfl <;> norm_num),
    (transform_untransform_roundtrip.2 [-2]).1⟩

/-- C9: `LocalLevel.update` writes only the `state_cov` and `obs_cov` entries
and `LocalLevelConcentrated.update` writes only the `obs_cov` entry; the
design, transition and selection entries set to 1 in the constructors (and
`state_cov = 1` in `LocalLevelConcentrated`) are unchanged by every call. -/
theorem update_modifies_only_covariances :
    ∀ (m : SystemMatrices) (params : List ℝ),
      ((LocalLevel.update m params).design = m.design
        ∧ (LocalLevel.update m params).transition = m.transition
        ∧ (LocalLevel.update m params).selection = m.selection)
      ∧ ((LocalLevelConcentrated.update m params).design = m.design
        ∧ (LocalLevelConcentrated.update m params).transition = m.transition
        ∧ (LocalLevelConcentrated.update m params).selection = m.selection
        ∧ (LocalLevelConcentrated.update m params).state_cov = m.state_cov)
      ∧ ((LocalLevel.update LocalLevel.initMatrices params).design = 1
        ∧ (LocalLevel.update LocalLevel.initMatrices params).transition = 1
        ∧ (LocalLevel.update LocalLevel.initMatrices params).selection = 1)
      ∧ ((LocalLevelConcentrated.update LocalLevelConcentrated.initMatrices
            params).design = 1
        ∧ (LocalLevelConcentrated.update LocalLevelConcentrated.initMatrices
            params).transition = 1
        ∧ (LocalLevelConcentrated.update LocalLevelConcentrated.initMatrices
            params).selection = 1
        ∧ (LocalLevelConcentrated.update LocalLevelConcentrated.initMatrices
            params).state_cov = 1) :=
  fun _ _ => ⟨⟨rfl, rfl, rfl⟩, ⟨rfl, rfl, rfl, rfl⟩, ⟨rfl, rfl, rfl⟩,
    ⟨rfl, rfl, rfl, rfl⟩⟩

/-- C10: `transform_params` produces elementwise non-negative vectors
(squares), so every variance entry written by `update` after transformation is
non-negative, for both models. -/
theorem updated_variances_nonneg :
    ∀ (m : SystemMatrices) (u : List ℝ),
      (∀ x ∈ LocalLevel.transform_params u, 0 ≤ x)
      ∧ 0 ≤ (LocalLevel.update m (LocalLevel.transform_params u)).state_cov
      ∧ 0 ≤ (LocalLevel.update m (LocalLevel.transform_params u)).obs_cov
      ∧ 0 ≤ (LocalLevelConcentrated.update m
          (LocalLevelConcentrated.transform_params u)).obs_cov := by
  intro m u
  refine ⟨?_, ?_, ?_, ?_⟩
  · intro x hx
    rw [LocalLevel.transform_params] at hx
    obtain ⟨y, -, rfl⟩ := List.mem_map.mp hx
    positivity
  · exact getD_map_sq_nonneg u 0
  · exact getD_map_sq_nonneg u 1
  · exact getD_map_sq_nonneg u 0
